import Mathlib

/-!
Verification of the ds-to-dhall core subsystem.

The repository converts Kubernetes manifest trees to a merged Dhall record.
Its core (spec §1-§4) is the pipeline `composeSimplifiedDhallType`
(src/main.go:354-375): parse the textual record-type description returned by
the external inference tool into an AST (`parseRecordType`), run the
transform passes (`transformRecordType`, and at the data level
`transformList2Record` / `transformDockerImageSpec` via `strengthenRecord`,
src/main.go:377-390), and print the result (`ToDhall`).

The bodies of the tokenizer, parser, transform passes and printer are not
among the provided source files (only their callers `composeSimplifiedDhallType`
and `strengthenRecord` are); those components are modelled from the spec,
as marked on each definition.  `commonPrefix` (src/main.go:226-253) and
`strengthenRecord` are embedded directly from the source.
-/

namespace DsToDhall

/-- Lexical token of the record-type grammar (spec §4.1):
record delimiters and identifiers; keywords `List`/`Optional` are plain
identifiers recognized contextually by the parser. -/
inductive Token where
  | lbrace
  | rbrace
  | colon
  | comma
  | ident (s : String)
deriving DecidableEq, Repr

/-- Errors of the core pipeline (spec §7): a lexer error carrying the
offending character, and the parser's error conditions (unexpected token
with expected-vs-actual, unterminated record, duplicate field name,
trailing tokens after the root record). `outOfFuel` is an artifact of the
fuelled embedding and is never reached at the fuel used by `parseTokens`. -/
inductive PErr where
  | lexError (c : Char)
  | unexpected (expected : String) (got : Option Token)
  | unterminated
  | dupField (name : String)
  | trailing
  | outOfFuel
deriving DecidableEq, Repr

/-- AST of the simplified Dhall type grammar (spec §3): scalars, `Optional`,
`List`, and records with ordered named fields. -/
inductive TypeNode where
  | scalar (name : String)
  | optional (t : TypeNode)
  | list (t : TypeNode)
  | record (fields : List (String × TypeNode))
deriving Repr

/-- Characters admitted in identifiers (field and scalar type names). -/
def identChar (c : Char) : Bool :=
  c.isAlpha || c.isDigit || c == '_' || c == '-' || c == '/' || c == '.'

/-- Whitespace characters, discarded by the tokenizer (spec §4.1). -/
def wsChar (c : Char) : Bool :=
  c == ' ' || c == '\n' || c == '\t' || c == '\r'

/-- Modelled from the spec: the Tokenizer (spec §4.1; its body is not among
the provided sources).  Fuelled so that evaluation is kernel-reducible;
`lex` below always supplies sufficient fuel.  Yields the token sequence or
the first unrecognized character; whitespace is discarded. -/
def lexF : Nat → List Char → Except Char (List Token)
  | 0, _ => .error '\x00'
  | fuel + 1, cs =>
    match cs with
    | [] => .ok []
    | c :: cs =>
      if wsChar c then lexF fuel cs
      else if c == '{' then (lexF fuel cs).map (Token.lbrace :: ·)
      else if c == '}' then (lexF fuel cs).map (Token.rbrace :: ·)
      else if c == ':' then (lexF fuel cs).map (Token.colon :: ·)
      else if c == ',' then (lexF fuel cs).map (Token.comma :: ·)
      else if identChar c then
        (lexF fuel (cs.dropWhile identChar)).map
          (Token.ident (String.mk (c :: cs.takeWhile identChar)) :: ·)
      else .error c

/-- The Tokenizer at sufficient fuel: one fuel unit per character always
suffices, plus one so the fuel never reaches zero. -/
def lex (cs : List Char) : Except Char (List Token) :=
  lexF (cs.length + 1) cs

mutual
/-- Modelled from the spec: the Parser's type production (spec §4.2 grammar;
the body of `parseRecordType` is not among the provided sources).
Recursive descent with one token of lookahead: `{` opens a record, the
identifiers `List` and `Optional` are unary type constructors, any other
identifier is a scalar type name. -/
def parseT : Nat → List Token → Except PErr (TypeNode × List Token)
  | 0, _ => .error .outOfFuel
  | _ + 1, [] => .error (.unexpected "type" none)
  | fuel + 1, .lbrace :: rest =>
    match rest with
    | .rbrace :: rest2 => .ok (.record [], rest2)
    | _ =>
      match parseFs fuel [] rest with
      | .ok (fs, rest2) => .ok (.record fs, rest2)
      | .error e => .error e
  | fuel + 1, .ident s :: rest =>
    if s = "List" then
      match parseT fuel rest with
      | .ok (t, rest2) => .ok (.list t, rest2)
      | .error e => .error e
    else if s = "Optional" then
      match parseT fuel rest with
      | .ok (t, rest2) => .ok (.optional t, rest2)
      | .error e => .error e
    else .ok (.scalar s, rest)
  | _ + 1, tok :: _ => .error (.unexpected "type" (some tok))

/-- Modelled from the spec: the Parser's field list production
(spec §4.2 `Field := Identifier ':' Type`, comma separated, closed by `}`).
Rejects a duplicate field name within one record, and reports an
unterminated record when the input ends before `}`. -/
def parseFs : Nat → List (String × TypeNode) → List Token →
    Except PErr (List (String × TypeNode) × List Token)
  | 0, _, _ => .error .outOfFuel
  | fuel + 1, acc, .ident name :: .colon :: rest =>
    if name ∈ acc.map Prod.fst then .error (.dupField name)
    else
      match parseT fuel rest with
      | .error e => .error e
      | .ok (t, rest2) =>
        match rest2 with
        | .comma :: rest3 => parseFs fuel (acc ++ [(name, t)]) rest3
        | .rbrace :: rest3 => .ok (acc ++ [(name, t)], rest3)
        | tok :: _ => .error (.unexpected "comma or closing brace" (some tok))
        | [] => .error .unterminated
  | _ + 1, _, ts => .error (.unexpected "field name" ts.head?)
end

/-- Modelled from the spec: parse a token stream into the root node, which
must be a record (spec §4.2), with no trailing tokens after it closes.
The fuel `ts.length + 1` is always sufficient (the parser consumes at least
one token before each recursive call). -/
def parseTokens (ts : List Token) : Except PErr TypeNode :=
  match parseT (ts.length + 1) ts with
  | .error e => .error e
  | .ok (.record fs, []) => .ok (.record fs)
  | .ok (.record _, _ :: _) => .error .trailing
  | .ok (_, _) => .error (.unexpected "record" none)

/-- Modelled from the spec: the full front end `parseRecordType`
(src/main.go:363): tokenize, then parse the root record type. -/
def parseTop (s : String) : Except PErr TypeNode :=
  match lex s.data with
  | .error c => .error (.lexError c)
  | .ok ts => parseTokens ts

/-- One indentation unit is two spaces; `indent i` is `i` units. -/
def indent (i : Nat) : List Char := List.replicate (2 * i) ' '

mutual
/-- Modelled from the spec: the Printer `ToDhall` (spec §4.4; its body is
not among the provided sources), producing characters.  Non-empty records
break one field per line, nested records indent by one more unit, an empty
record is the single-line empty-braces pair. -/
def prC : TypeNode → Nat → List Char
  | .scalar n, _ => n.data
  | .optional t, i => "Optional ".data ++ prC t i
  | .list t, i => "List ".data ++ prC t i
  | .record [], _ => "{}".data
  | .record (f :: fs), i =>
    '{' :: '\n' :: (prFields (f :: fs) (i + 1) ++ (indent i ++ ['}']))

/-- Modelled from the spec: the Printer's field lines: each field is
`indent, name, " : ", printed type`, with a trailing comma on every field
except the last (spec §4.4). -/
def prFields : List (String × TypeNode) → Nat → List Char
  | [], _ => []
  | [(n, t)], i => indent i ++ (n.data ++ (' ' :: ':' :: ' ' :: (prC t i ++ ['\n'])))
  | (n, t) :: f :: fs, i =>
    indent i ++
      (n.data ++ (' ' :: ':' :: ' ' :: (prC t i ++ (',' :: '\n' :: prFields (f :: fs) i))))
end

/-- The printed form of an AST, starting at indentation level 1 as the
caller does (`rt.ToDhall(&sb, 1)`, src/main.go:372). -/
def printTop (t : TypeNode) : String := String.mk (prC t 1)

mutual
/-- The token sequence a printed `TypeNode` lexes to. -/
def toks : TypeNode → List Token
  | .scalar n => [.ident n]
  | .optional t => .ident "Optional" :: toks t
  | .list t => .ident "List" :: toks t
  | .record fs => .lbrace :: (fieldsToks fs ++ [.rbrace])

/-- Token sequences of a printed field list: `name : type`, comma separated. -/
def fieldsToks : List (String × TypeNode) → List Token
  | [] => []
  | [(n, t)] => .ident n :: .colon :: toks t
  | (n, t) :: f :: fs => .ident n :: .colon :: (toks t ++ .comma :: fieldsToks (f :: fs))
end

/-- The fixed record type substituted for an `image`-named text field
(spec §4.3 and §8: registry, repository, tag). -/
def imageType : TypeNode :=
  .record [("registry", .optional (.scalar "Text")),
           ("repository", .scalar "Text"),
           ("tag", .optional (.scalar "Text"))]

/-- Whether a node is the bare text scalar. -/
def isTextScalar : TypeNode → Bool
  | .scalar n => n == "Text"
  | _ => false

mutual
/-- Modelled from the spec: the image-recognition pass
`transformDockerImageSpec` (spec §4.3; its body is not among the provided
sources).  A bottom-up total rewrite: any record field named `image` whose
type is the bare `Text` scalar gets the fixed `imageType` record; the pass
matches on field name and scalar/text type only (field values do not exist
in this type-level representation). -/
def transformDockerImageSpec : TypeNode → TypeNode
  | .scalar n => .scalar n
  | .optional t => .optional (transformDockerImageSpec t)
  | .list t => .list (transformDockerImageSpec t)
  | .record fs => .record (tdisFields fs)

/-- Field-list traversal of the image-recognition pass. -/
def tdisFields : List (String × TypeNode) → List (String × TypeNode)
  | [] => []
  | (n, t) :: fs =>
    (n, if n == "image" && isTextScalar t then imageType else transformDockerImageSpec t)
      :: tdisFields fs
end

/-- Modelled from the spec: `transformRecordType` (src/main.go:368; its body
is not among the provided sources) applies the ordered type-level passes
(spec §4.3).  At the type level the list-to-record pass always declines —
the type alone carries no sample values, so no distinct key set can be
established (spec §4.3: decline rather than rewrite) — leaving the
image-recognition pass. -/
def transformRecordType (t : TypeNode) : TypeNode := transformDockerImageSpec t

/-- The core operation `composeSimplifiedDhallType` (src/main.go:354-375),
restricted to the in-scope core (spec §1): the external `yaml-to-dhall` and
`dhall type` invocations are excluded collaborators, so the function is
modelled on their output, the textual type description.  Parse it, apply
`transformRecordType`, print at starting indentation 1. -/
def composeSimplifiedDhallType (typeText : String) : Except PErr String :=
  match parseTop typeText with
  | .error e => .error e
  | .ok rt => .ok (printTop (transformRecordType rt))

/-- YAML-like data values (`map[string]interface{}` contents in
src/main.go): strings, naturals, booleans, sequences and string-keyed
records. -/
inductive Val where
  | vstr (s : String)
  | vnat (n : Nat)
  | vbool (b : Bool)
  | vlist (es : List Val)
  | vrec (fs : List (String × Val))
deriving Repr

/-- The sample-derived key of a list element: the string value of its
`name` field, when the element is a record that has one. -/
def keyOf : Val → Option String
  | .vrec fs =>
    match fs.lookup "name" with
    | some (.vstr s) => some s
    | _ => none
  | _ => none

/-- Drop the consumed `name` key field from a record element. -/
def dropName : Val → Val
  | .vrec fs => .vrec (fs.filter (fun p => !(p.1 == "name")))
  | v => v

/-- The keys of all elements, when every element has one. -/
def keysOf (es : List Val) : Option (List String) := es.mapM keyOf

/-- Whether a list's elements form a closed enumeration of distinct keys:
every element is a record with a string `name` field and the names are
pairwise distinct (spec §4.3's precondition for strengthening). -/
def goodKeys (es : List Val) : Bool :=
  match keysOf es with
  | some ks => decide ks.Nodup
  | none => false

mutual
/-- Modelled from the spec: the list-to-record strengthening pass
`transformList2Record` (spec §4.3; its body is not among the provided
sources; src/main.go:383 shows it operates on the sample data record).
Bottom-up: a list whose elements have statically distinct string `name`
keys becomes a record keyed by those names, each key mapping to the element
with the `name` field removed; otherwise the list is left unchanged
(correctness over aggressiveness). -/
def t2rCore : Val → Val
  | .vstr s => .vstr s
  | .vnat n => .vnat n
  | .vbool b => .vbool b
  | .vrec fs => .vrec (t2rFields fs)
  | .vlist es =>
    let es2 := t2rList es
    if goodKeys es2 then
      .vrec (es2.map (fun e => (( keyOf e).getD "", dropName e)))
    else .vlist es2

/-- Record traversal of the list-to-record pass. -/
def t2rFields : List (String × Val) → List (String × Val)
  | [] => []
  | (n, v) :: fs => (n, t2rCore v) :: t2rFields fs

/-- Element traversal of the list-to-record pass. -/
def t2rList : List Val → List Val
  | [] => []
  | e :: es => t2rCore e :: t2rList es
end

/-- Modelled from the spec: `transformList2Record` with the signature its
caller `strengthenRecord` (src/main.go:383) gives it — it may report an
error — and the totality the spec requires of every pass (spec §4.3, §7:
a pass that cannot prove a safe rewrite declines rather than fails), so the
error branch is never taken. -/
def transformList2Record (v : Val) : Except String Val := .ok (t2rCore v)

mutual
/-- The type the external inference tool derives from sample data
(spec §1, §6): strings are `Text`, naturals `Natural`, booleans `Bool`,
records are field-wise, a list takes its first element's type. -/
def typeOf : Val → TypeNode
  | .vstr _ => .scalar "Text"
  | .vnat _ => .scalar "Natural"
  | .vbool _ => .scalar "Bool"
  | .vrec fs => .record (typeOfFields fs)
  | .vlist [] => .list (.record [])
  | .vlist (e :: _) => .list (typeOf e)

/-- Field-wise type inference. -/
def typeOfFields : List (String × Val) → List (String × TypeNode)
  | [] => []
  | (n, v) :: fs => (n, typeOf v) :: typeOfFields fs
end

/-- `strengthenRecord` (src/main.go:377-390), embedded from the source and
parameterized by the two pass functions whose bodies are not among the
provided sources: identity unless the strengthen flag is set and the k8s
schema is not in use; on a pass error the original record is returned
unchanged (the Go code logs a warning and returns `rec`). -/
def strengthenRecord {α : Type} (t2r : α → Except String α) (tdis : α → α)
    (strengthen useK8sSchema : Bool) (rcd : α) : α :=
  if !strengthen || useK8sSchema then rcd
  else
    match t2r rcd with
    | .error _ => rcd
    | .ok srec => tdis srec

/-- `os.PathSeparator` on the target platform. -/
def pathSep : Char := '/'

/-- Go's `strings.Split` on a one-character separator: the (possibly empty)
chunks between separators; the empty input splits to one empty chunk. -/
def splitOnChar (sep : Char) : List Char → List (List Char)
  | [] => [[]]
  | c :: cs =>
    match splitOnChar sep cs with
    | [] => [[]]
    | h :: t => if c == sep then [] :: h :: t else (c :: h) :: t

/-- Longest common prefix of two component lists. -/
def listLCP : List (List Char) → List (List Char) → List (List Char)
  | a :: as, b :: bs => if a == b then a :: listLCP as bs else []
  | _, _ => []

/-- One iteration of `commonPrefix`'s loop (src/main.go:237-248): truncate
`cp` to the other path's component count, then keep the components equal
index by index. -/
def lcpStep (cp ps : List (List Char)) : List (List Char) :=
  let cp2 := if ps.length < cp.length then cp.take ps.length else cp
  listLCP cp2 ps

/-- `commonPrefix` (src/main.go:226-253), embedded from the source: split
every path on the separator, intersect component-wise (the loop), and
return `/` when nothing non-trivial remains (`len(cp) == 0`, or
`len(cp) == 1 && cp[0] == ""`). -/
def commonPrefix (paths : List String) : String :=
  match paths with
  | [] => ""
  | p :: rest =>
    let cp0 := splitOnChar pathSep p.data
    if cp0 = [] ∨ cp0 = [[]] then "/"
    else
      let cp := rest.foldl (fun cp path => lcpStep cp (splitOnChar pathSep path.data)) cp0
      if cp = [] ∨ cp = [[]] then "/"
      else String.mk (List.intercalate [pathSep] cp)

/-- The claim's description of `commonPrefix`, word for word: empty string
for an empty list; otherwise the longest component-wise common prefix of
the split paths joined by the separator, with `/` exactly when the paths
share no leading components (the common prefix is empty). -/
def specCommonPrefixLiteral (paths : List String) : String :=
  match paths with
  | [] => ""
  | p :: rest =>
    let l := rest.foldl (fun acc q => listLCP acc (splitOnChar pathSep q.data))
      (splitOnChar pathSep p.data)
    if l = [] then "/" else String.mk (List.intercalate [pathSep] l)

/-- The amended description: as the literal one, except that `/` is also
returned when the common prefix is the single empty component — the paths
agree only in the leading separator (or the first path is empty). -/
def specCommonPrefixAmended (paths : List String) : String :=
  match paths with
  | [] => ""
  | p :: rest =>
    let l := rest.foldl (fun acc q => listLCP acc (splitOnChar pathSep q.data))
      (splitOnChar pathSep p.data)
    if l = [] ∨ l = [[]] then "/" else String.mk (List.intercalate [pathSep] l)

/-- A lexable identifier: non-empty and made of identifier characters. -/
def validName (s : String) : Prop :=
  s.data ≠ [] ∧ ∀ c ∈ s.data, identChar c = true

/-- Every identifier token in a stream is lexable. -/
def IdentsOK (ts : List Token) : Prop :=
  ∀ s, Token.ident s ∈ ts → validName s

/-- The next character (if any) cannot extend an identifier. -/
def headNI : List Char → Prop
  | [] => True
  | c :: _ => identChar c = false

/-- Well-formed ASTs (spec §3 invariants): field names are unique within
each record and lexable, scalar names are lexable and are not the
contextual keywords. -/
inductive WF : TypeNode → Prop where
  | scalar {n : String} : validName n → n ≠ "List" → n ≠ "Optional" →
      WF (.scalar n)
  | optional {t : TypeNode} : WF t → WF (.optional t)
  | list {t : TypeNode} : WF t → WF (.list t)
  | record {fs : List (String × TypeNode)} :
      (fs.map Prod.fst).Nodup →
      (∀ p ∈ fs, validName p.1) →
      (∀ p ∈ fs, WF p.2) →
      WF (.record fs)

/-- Structural induction for `TypeNode` through the nested field lists. -/
def TypeNode.indOn {motive : TypeNode → Prop}
    (hs : ∀ n, motive (.scalar n))
    (ho : ∀ t, motive t → motive (.optional t))
    (hl : ∀ t, motive t → motive (.list t))
    (hr : ∀ fs, (∀ p ∈ fs, motive p.2) → motive (.record fs)) :
    ∀ t, motive t := fun t =>
  match t with
  | .scalar n => hs n
  | .optional t => ho t (TypeNode.indOn hs ho hl hr t)
  | .list t => hl t (TypeNode.indOn hs ho hl hr t)
  | .record fs => hr fs (fun p hp => TypeNode.indOn hs ho hl hr p.2)
termination_by t => sizeOf t
decreasing_by
  all_goals try (simp; done)
  all_goals
    (obtain ⟨a, b⟩ := p
     have h9 := List.sizeOf_lt_of_mem hp
     simp_all
     omega)

/-! ## Lexer lemmas -/

theorem length_dropWhile_le (p : Char → Bool) (l : List Char) :
    (l.dropWhile p).length ≤ l.length := by
  induction l with
  | nil => simp [List.dropWhile]
  | cons c cs ih =>
    simp only [List.dropWhile]
    split
    · exact Nat.le_trans ih (by simp)
    · simp

theorem lexF_cons (fuel : Nat) (c : Char) (cs : List Char) :
    lexF (fuel + 1) (c :: cs) =
      if wsChar c then lexF fuel cs
      else if c == '{' then (lexF fuel cs).map (Token.lbrace :: ·)
      else if c == '}' then (lexF fuel cs).map (Token.rbrace :: ·)
      else if c == ':' then (lexF fuel cs).map (Token.colon :: ·)
      else if c == ',' then (lexF fuel cs).map (Token.comma :: ·)
      else if identChar c then
        (lexF fuel (cs.dropWhile identChar)).map
          (Token.ident (String.mk (c :: cs.takeWhile identChar)) :: ·)
      else .error c := rfl

theorem lexF_irrel : ∀ fuel fuel' cs, cs.length < fuel → cs.length < fuel' →
    lexF fuel cs = lexF fuel' cs := by
  intro fuel
  induction fuel with
  | zero => intro fuel' cs h _; omega
  | succ f ih =>
    intro fuel' cs h h'
    match fuel', cs with
    | f' + 1, [] => simp [lexF]
    | f' + 1, c :: cs =>
      rw [lexF_cons, lexF_cons]
      simp only [List.length_cons] at h h'
      split_ifs
      · exact ih f' cs (by omega) (by omega)
      · rw [ih f' cs (by omega) (by omega)]
      · rw [ih f' cs (by omega) (by omega)]
      · rw [ih f' cs (by omega) (by omega)]
      · rw [ih f' cs (by omega) (by omega)]
      · rw [ih f' (cs.dropWhile identChar)
          (by have := length_dropWhile_le identChar cs; omega)
          (by have := length_dropWhile_le identChar cs; omega)]
      · rfl

theorem lex_space (cs : List Char) : lex (' ' :: cs) = lex cs := rfl

theorem lex_newline (cs : List Char) : lex ('\n' :: cs) = lex cs := rfl

theorem lex_lbrace (cs : List Char) :
    lex ('{' :: cs) = (lex cs).map (Token.lbrace :: ·) := rfl

theorem lex_rbrace (cs : List Char) :
    lex ('}' :: cs) = (lex cs).map (Token.rbrace :: ·) := rfl

theorem lex_colon (cs : List Char) :
    lex (':' :: cs) = (lex cs).map (Token.colon :: ·) := rfl

theorem lex_comma (cs : List Char) :
    lex (',' :: cs) = (lex cs).map (Token.comma :: ·) := rfl

theorem wsChar_cases {c : Char} (h : wsChar c = true) :
    c = ' ' ∨ c = '\n' ∨ c = '\t' ∨ c = '\r' := by
  simp only [wsChar, Bool.or_eq_true, beq_iff_eq] at h
  tauto

theorem identChar_not_ws {c : Char} (h : identChar c = true) : wsChar c = false := by
  by_contra hw
  rw [Bool.not_eq_false] at hw
  rcases wsChar_cases hw with rfl | rfl | rfl | rfl <;> simp [identChar] at h

theorem identChar_ne {c d : Char} (h : identChar c = true) (hd : identChar d = false) :
    c ≠ d := by
  intro rfl0
  rw [rfl0, hd] at h
  cases h

theorem lex_cons_ident (c : Char) (h : identChar c = true) (cs : List Char) :
    lex (c :: cs) =
      (lex (cs.dropWhile identChar)).map
        (Token.ident (String.mk (c :: cs.takeWhile identChar)) :: ·) := by
  show lexF (cs.length + 2) (c :: cs) = _
  rw [show cs.length + 2 = (cs.length + 1) + 1 from rfl, lexF_cons]
  rw [if_neg (by simp [identChar_not_ws h]),
    if_neg (by simp [(identChar_ne h (by rfl) : c ≠ '{')]),
    if_neg (by simp [(identChar_ne h (by rfl) : c ≠ '}')]),
    if_neg (by simp [(identChar_ne h (by rfl) : c ≠ ':')]),
    if_neg (by simp [(identChar_ne h (by rfl) : c ≠ ',')]),
    if_pos h]
  rw [lexF_irrel (cs.length + 1) ((cs.dropWhile identChar).length + 1)
    (cs.dropWhile identChar)
    (by have := length_dropWhile_le identChar cs; omega) (by omega)]
  rfl

theorem takeWhile_append_ident {xs cs : List Char}
    (h1 : ∀ c ∈ xs, identChar c = true) (h2 : headNI cs) :
    (xs ++ cs).takeWhile identChar = xs := by
  induction xs with
  | nil =>
    cases cs with
    | nil => rfl
    | cons c cs =>
      simp only [headNI] at h2
      simp [List.takeWhile_cons_of_neg, h2]
  | cons x xs ih =>
    rw [List.cons_append, List.takeWhile_cons_of_pos (by simp [h1 x (by simp)]),
      ih (fun c hc => h1 c (by simp [hc]))]

theorem dropWhile_append_ident {xs cs : List Char}
    (h1 : ∀ c ∈ xs, identChar c = true) (h2 : headNI cs) :
    (xs ++ cs).dropWhile identChar = cs := by
  induction xs with
  | nil =>
    cases cs with
    | nil => rfl
    | cons c cs =>
      simp only [headNI] at h2
      simp [List.dropWhile_cons_of_neg, h2]
  | cons x xs ih =>
    rw [List.cons_append, List.dropWhile_cons_of_pos (by simp [h1 x (by simp)])]
    exact ih (fun c hc => h1 c (by simp [hc]))

theorem lex_ident_append {n : String} (hn : validName n) {cs : List Char}
    (hcs : headNI cs) :
    lex (n.data ++ cs) = (lex cs).map (Token.ident n :: ·) := by
  obtain ⟨hne, hall⟩ := hn
  rcases hd : n.data with _ | ⟨d, ds⟩
  · exact absurd hd hne
  have hdm : identChar d = true := hall d (by rw [hd]; simp)
  have hds : ∀ c ∈ ds, identChar c = true := fun c hc => hall c (by rw [hd]; simp [hc])
  simp only [List.cons_append]
  rw [lex_cons_ident d hdm]
  rw [takeWhile_append_ident hds hcs, dropWhile_append_ident hds hcs]
  have : String.mk (d :: ds) = n := by rw [← hd]
  rw [this]

theorem lex_indent (i : Nat) (cs : List Char) : lex (indent i ++ cs) = lex cs := by
  show lex (List.replicate (2 * i) ' ' ++ cs) = lex cs
  induction (2 * i) with
  | zero => rfl
  | succ k ih => simpa [List.replicate_succ] using ih

theorem IdentsOK.cons {tok : Token} {ts : List Token}
    (h1 : ∀ s, tok = Token.ident s → validName s) (h2 : IdentsOK ts) :
    IdentsOK (tok :: ts) := by
  intro s hs
  rcases List.mem_cons.mp hs with heq | hmem
  · exact h1 s heq.symm
  · exact h2 s hmem

theorem lexF_sound : ∀ fuel cs ts, lexF fuel cs = .ok ts → IdentsOK ts := by
  intro fuel
  induction fuel with
  | zero => intro cs ts h; cases h
  | succ f ih =>
    intro cs ts h
    match cs with
    | [] =>
      simp only [lexF] at h
      cases h
      intro s hs
      cases hs
    | c :: cs =>
      rw [lexF_cons] at h
      split_ifs at h with h1 h2 h3 h4 h5 h6
      · exact ih cs ts h
      all_goals try
        (rcases hrec : lexF f cs with e | ts2 <;> rw [hrec] at h
         · cases h
         · cases h
           exact IdentsOK.cons (by intro s hs; cases hs) (ih cs ts2 hrec))
      · rcases hrec : lexF f (cs.dropWhile identChar) with e | ts2 <;> rw [hrec] at h
        · cases h
        · cases h
          refine IdentsOK.cons ?_ (ih (cs.dropWhile identChar) ts2 hrec)
          intro s hs
          cases hs
          refine ⟨by simp, ?_⟩
          intro x hx
          rcases List.mem_cons.mp hx with rfl | hx2
          · exact h6
          · exact List.mem_takeWhile_imp hx2

theorem lex_sound {cs : List Char} {ts : List Token} (h : lex cs = .ok ts) :
    IdentsOK ts :=
  lexF_sound (cs.length + 1) cs ts h

/-! ## Printer output lexes back to the printed node's tokens -/

theorem emap_emap {α β γ ε : Type} (x : Except ε α) (f : α → β) (g : β → γ) :
    (x.map f).map g = x.map (fun a => g (f a)) := by
  cases x <;> rfl

theorem emap_congr {α β ε : Type} {x : Except ε α} {f g : α → β}
    (h : ∀ a, f a = g a) : x.map f = x.map g := by
  cases x with
  | error e => rfl
  | ok a => simp only [Except.map, h a]

theorem headNI_indent (i : Nat) (cs : List Char) : headNI (indent i ++ '}' :: cs) := by
  unfold indent
  cases e : 2 * i with
  | zero => exact (by decide : identChar '}' = false)
  | succ k => rw [List.replicate_succ]; exact (by decide : identChar ' ' = false)

theorem lex_prFields (fs : List (String × TypeNode))
    (IH : ∀ p ∈ fs, WF p.2 → ∀ i cs, headNI cs →
      lex (prC p.2 i ++ cs) = (lex cs).map (fun l => toks p.2 ++ l))
    (hn : ∀ p ∈ fs, validName p.1) (hw : ∀ p ∈ fs, WF p.2) (hne : fs ≠ []) :
    ∀ i cs, headNI cs →
      lex (prFields fs i ++ cs) = (lex cs).map (fun l => fieldsToks fs ++ l) := by
  induction fs with
  | nil => exact absurd rfl hne
  | cons f fs ihfs =>
    obtain ⟨n, t⟩ := f
    intro i cs hcs
    cases fs with
    | nil =>
      simp only [prFields]
      simp only [List.append_assoc, List.cons_append, List.singleton_append,
        List.nil_append]
      rw [lex_indent,
        lex_ident_append (hn (n, t) (by simp)) (by exact (by decide : identChar ' ' = false)),
        lex_space, lex_colon, lex_space,
        IH (n, t) (by simp) (hw (n, t) (by simp)) i ('\n' :: cs)
          (by exact (by decide : identChar '\n' = false)),
        lex_newline, emap_emap, emap_emap]
      exact emap_congr (by intro a; simp [fieldsToks])
    | cons f2 fs2 =>
      simp only [prFields]
      simp only [List.append_assoc, List.cons_append, List.singleton_append,
        List.nil_append]
      rw [lex_indent,
        lex_ident_append (hn (n, t) (by simp)) (by exact (by decide : identChar ' ' = false)),
        lex_space, lex_colon, lex_space,
        IH (n, t) (by simp) (hw (n, t) (by simp)) i
          (',' :: '\n' :: (prFields (f2 :: fs2) i ++ cs))
          (by exact (by decide : identChar ',' = false)),
        lex_comma, lex_newline,
        ihfs (fun p hp => IH p (by simp [hp])) (fun p hp => hn p (by simp [hp]))
          (fun p hp => hw p (by simp [hp])) (by simp) i cs hcs,
        emap_emap, emap_emap, emap_emap, emap_emap]
      exact emap_congr (by intro a; simp [fieldsToks])

theorem lex_prC : ∀ a, WF a → ∀ i cs, headNI cs →
    lex (prC a i ++ cs) = (lex cs).map (fun l => toks a ++ l) := by
  intro a
  induction a using TypeNode.indOn with
  | hs n =>
    intro hwf i cs hcs
    cases hwf with
    | scalar hv _ _ =>
      simp only [prC]
      rw [lex_ident_append hv hcs]
      exact emap_congr (by intro a; simp [toks])
  | ho t iht =>
    intro hwf i cs hcs
    cases hwf with
    | optional hw0 =>
      simp only [prC]
      rw [List.append_assoc]
      rw [show (['O', 'p', 't', 'i', 'o', 'n', 'a', 'l', ' '] : List Char) ++
            (prC t i ++ cs) = "Optional".data ++ (' ' :: (prC t i ++ cs)) from rfl]
      rw [lex_ident_append (by constructor <;> decide)
          (by exact (by decide : identChar ' ' = false)),
        lex_space, iht hw0 i cs hcs, emap_emap]
      exact emap_congr (by intro a; simp [toks])
  | hl t iht =>
    intro hwf i cs hcs
    cases hwf with
    | list hw0 =>
      simp only [prC]
      rw [List.append_assoc]
      rw [show (['L', 'i', 's', 't', ' '] : List Char) ++
            (prC t i ++ cs) = "List".data ++ (' ' :: (prC t i ++ cs)) from rfl]
      rw [lex_ident_append (by constructor <;> decide)
          (by exact (by decide : identChar ' ' = false)),
        lex_space, iht hw0 i cs hcs, emap_emap]
      exact emap_congr (by intro a; simp [toks])
  | hr fs ihf =>
    intro hwf i cs hcs
    cases hwf with
    | record hnd hnames hwfs =>
      cases fs with
      | nil =>
        simp only [prC]
        rw [show (['{', '}'] : List Char) ++ cs = '{' :: '}' :: cs from rfl,
          lex_lbrace, lex_rbrace, emap_emap]
        exact emap_congr (by intro a; simp [toks, fieldsToks])
      | cons f fs2 =>
        simp only [prC]
        simp only [List.append_assoc, List.cons_append, List.singleton_append,
          List.nil_append]
        rw [lex_lbrace, lex_newline,
          lex_prFields (f :: fs2) ihf hnames hwfs (by simp) (i + 1)
            (indent i ++ '}' :: cs) (headNI_indent i cs),
          lex_indent, lex_rbrace, emap_emap, emap_emap]
        exact emap_congr (by intro a; simp [toks, fieldsToks])

theorem headNI_nil : headNI [] := trivial

theorem lex_toks {a : TypeNode} (h : WF a) : lex (prC a 1) = .ok (toks a) := by
  have h1 := lex_prC a h 1 [] headNI_nil
  rw [List.append_nil] at h1
  rw [h1]
  rw [show lex [] = .ok [] from rfl]
  simp [Except.map]

/-! ## Parser roundtrip: the tokens of a well-formed node parse back to it -/

theorem fieldsToks_cons (n : String) (t : TypeNode) (fs : List (String × TypeNode)) :
    ∃ r, fieldsToks ((n, t) :: fs) = .ident n :: .colon :: r := by
  cases fs with
  | nil => exact ⟨toks t, by simp [fieldsToks]⟩
  | cons f fs2 => exact ⟨toks t ++ .comma :: fieldsToks (f :: fs2), by simp [fieldsToks]⟩

theorem nodup_head_not_mem {acc : List (String × TypeNode)} {n : String}
    {l : List String}
    (h : ((acc.map Prod.fst) ++ (n :: l)).Nodup) : n ∉ acc.map Prod.fst := by
  rcases List.nodup_append.mp h with ⟨_, _, hdisj⟩
  intro hmem
  exact hdisj hmem (by simp)

theorem parseFs_toks (fs : List (String × TypeNode))
    (IH : ∀ p ∈ fs, WF p.2 → ∀ fuel rest, (toks p.2).length + rest.length < fuel →
      parseT fuel (toks p.2 ++ rest) = .ok (p.2, rest))
    (hw : ∀ p ∈ fs, WF p.2) :
    ∀ acc fuel rest, fs ≠ [] →
      (fieldsToks fs).length + rest.length + 1 < fuel →
      ((acc ++ fs).map Prod.fst).Nodup →
      parseFs fuel acc (fieldsToks fs ++ .rbrace :: rest) = .ok (acc ++ fs, rest) := by
  induction fs with
  | nil => intro acc fuel rest hne; exact absurd rfl hne
  | cons f fs ihfs =>
    obtain ⟨n, t⟩ := f
    intro acc fuel rest _ hfuel hnd
    have hnmem : n ∉ acc.map Prod.fst :=
      @nodup_head_not_mem acc n (fs.map Prod.fst) (by simpa using hnd)
    obtain ⟨f0, rfl⟩ : ∃ f0, fuel = f0 + 1 := ⟨fuel - 1, by omega⟩
    cases fs with
    | nil =>
      simp only [fieldsToks, List.cons_append, List.append_assoc] at hfuel ⊢
      simp only [parseFs]
      rw [if_neg hnmem]
      rw [IH (n, t) (by simp) (hw (n, t) (by simp)) f0 (.rbrace :: rest)
        (by simp [List.length_cons] at hfuel ⊢; omega)]
    | cons f2 fs2 =>
      simp only [fieldsToks, List.cons_append, List.append_assoc] at hfuel ⊢
      simp only [parseFs]
      rw [if_neg hnmem]
      rw [IH (n, t) (by simp) (hw (n, t) (by simp)) f0
        (.comma :: (fieldsToks (f2 :: fs2) ++ .rbrace :: rest))
        (by simp [List.length_cons, List.length_append] at hfuel ⊢; omega)]
      show parseFs f0 (acc ++ [(n, t)]) (fieldsToks (f2 :: fs2) ++ Token.rbrace :: rest) =
        Except.ok (acc ++ (n, t) :: f2 :: fs2, rest)
      rw [ihfs (fun p hp => IH p (by simp [hp])) (fun p hp => hw p (by simp [hp]))
        (acc ++ [(n, t)]) f0 rest (by simp)
        (by simp [List.length_append, List.length_cons] at hfuel ⊢; omega)
        (by simpa using hnd)]
      simp

theorem parseT_toks : ∀ a, WF a → ∀ fuel rest,
    (toks a).length + rest.length < fuel →
    parseT fuel (toks a ++ rest) = .ok (a, rest) := by
  intro a
  induction a using TypeNode.indOn with
  | hs n =>
    intro hwf fuel rest hfuel
    cases hwf with
    | scalar hv hL hO =>
      obtain ⟨f0, rfl⟩ : ∃ f0, fuel = f0 + 1 := ⟨fuel - 1, by simp [toks] at hfuel; omega⟩
      simp only [toks, List.cons_append, List.nil_append]
      simp only [parseT]
      rw [if_neg hL, if_neg hO]
  | ho t iht =>
    intro hwf fuel rest hfuel
    cases hwf with
    | optional hw0 =>
      obtain ⟨f0, rfl⟩ : ∃ f0, fuel = f0 + 1 := ⟨fuel - 1, by simp [toks] at hfuel; omega⟩
      simp only [toks, List.cons_append]
      simp only [parseT]
      simp only [if_true, if_false, String.reduceEq, reduceIte]
      rw [iht hw0 f0 rest (by simp [toks, List.length_cons] at hfuel ⊢; omega)]
  | hl t iht =>
    intro hwf fuel rest hfuel
    cases hwf with
    | list hw0 =>
      obtain ⟨f0, rfl⟩ : ∃ f0, fuel = f0 + 1 := ⟨fuel - 1, by simp [toks] at hfuel; omega⟩
      simp only [toks, List.cons_append]
      simp only [parseT]
      simp only [if_true, if_false, String.reduceEq, reduceIte]
      rw [iht hw0 f0 rest (by simp [toks, List.length_cons] at hfuel ⊢; omega)]
  | hr fs ihf =>
    intro hwf fuel rest hfuel
    cases hwf with
    | record hnd hnames hwfs =>
      obtain ⟨f0, rfl⟩ : ∃ f0, fuel = f0 + 1 := ⟨fuel - 1, by simp [toks] at hfuel; omega⟩
      cases fs with
      | nil =>
        simp only [toks, fieldsToks, List.cons_append, List.nil_append]
        simp only [parseT]
      | cons f fs2 =>
        obtain ⟨n, t⟩ := f
        obtain ⟨r, hr2⟩ := fieldsToks_cons n t fs2
        simp only [toks, List.cons_append, List.append_assoc, List.singleton_append,
          List.nil_append]
        rw [hr2]
        simp only [List.cons_append]
        simp only [parseT]
        rw [show (Token.ident n :: Token.colon :: (r ++ Token.rbrace :: rest)) =
          fieldsToks ((n, t) :: fs2) ++ Token.rbrace :: rest from by
            rw [hr2]; simp]
        rw [parseFs_toks ((n, t) :: fs2) ihf hwfs [] f0 rest (by simp)
          (by simp [toks, List.length_append, List.length_cons] at hfuel ⊢; omega)
          (by simpa using hnd)]
        simp

/-! ## Parser soundness: parsed trees are well-formed -/

theorem IdentsOK.tail {tok : Token} {ts : List Token} (h : IdentsOK (tok :: ts)) :
    IdentsOK ts :=
  fun s hs => h s (List.mem_cons_of_mem _ hs)

theorem parse_sound : ∀ fuel,
    (∀ ts a rest, parseT fuel ts = .ok (a, rest) → IdentsOK ts →
      WF a ∧ IdentsOK rest) ∧
    (∀ acc ts fs rest, parseFs fuel acc ts = .ok (fs, rest) → IdentsOK ts →
      (((acc.map Prod.fst).Nodup → (∀ p ∈ acc, validName p.1) → (∀ p ∈ acc, WF p.2) →
        (fs.map Prod.fst).Nodup ∧ (∀ p ∈ fs, validName p.1) ∧ (∀ p ∈ fs, WF p.2)) ∧
       IdentsOK rest)) := by
  intro fuel
  induction fuel with
  | zero =>
    constructor
    · intro ts a rest h; simp [parseT] at h
    · intro acc ts fs rest h; simp [parseFs] at h
  | succ f ih =>
    obtain ⟨ihT, ihF⟩ := ih
    constructor
    · intro ts a rest h hok
      rcases ts with _ | ⟨tok, ts1⟩
      · simp [parseT] at h
      cases tok with
      | lbrace =>
        rcases ts1 with _ | ⟨tok2, ts2⟩
        · rcases hfs : parseFs f [] [] with e | ⟨fs, rest2⟩
          · rw [show parseT (f + 1) [Token.lbrace] = .error e from by
              simp [parseT, hfs]] at h
            exact absurd h (by simp)
          · rw [show parseT (f + 1) [Token.lbrace] = .ok (.record fs, rest2) from by
              simp [parseT, hfs]] at h
            cases h
            obtain ⟨hprops, hrest⟩ := ihF [] [] fs _ hfs hok.tail
            obtain ⟨h1, h2, h3⟩ := hprops (by simp) (by simp) (by simp)
            exact ⟨WF.record h1 h2 h3, hrest⟩
        cases tok2 with
        | rbrace =>
          rw [show parseT (f + 1) (Token.lbrace :: Token.rbrace :: ts2) =
            .ok (.record [], ts2) from by simp [parseT]] at h
          cases h
          exact ⟨WF.record (by simp) (by simp) (by simp), hok.tail.tail⟩
        | lbrace =>
          rcases hfs : parseFs f [] (Token.lbrace :: ts2) with e | ⟨fs, rest2⟩
          · rw [show parseT (f + 1) (Token.lbrace :: Token.lbrace :: ts2) = .error e
              from by simp [parseT, hfs]] at h
            exact absurd h (by simp)
          · rw [show parseT (f + 1) (Token.lbrace :: Token.lbrace :: ts2) =
              .ok (.record fs, rest2) from by simp [parseT, hfs]] at h
            cases h
            obtain ⟨hprops, hrest⟩ := ihF [] _ fs _ hfs hok.tail
            obtain ⟨h1, h2, h3⟩ := hprops (by simp) (by simp) (by simp)
            exact ⟨WF.record h1 h2 h3, hrest⟩
        | colon =>
          rcases hfs : parseFs f [] (Token.colon :: ts2) with e | ⟨fs, rest2⟩
          · rw [show parseT (f + 1) (Token.lbrace :: Token.colon :: ts2) = .error e
              from by simp [parseT, hfs]] at h
            exact absurd h (by simp)
          · rw [show parseT (f + 1) (Token.lbrace :: Token.colon :: ts2) =
              .ok (.record fs, rest2) from by simp [parseT, hfs]] at h
            cases h
            obtain ⟨hprops, hrest⟩ := ihF [] _ fs _ hfs hok.tail
            obtain ⟨h1, h2, h3⟩ := hprops (by simp) (by simp) (by simp)
            exact ⟨WF.record h1 h2 h3, hrest⟩
        | comma =>
          rcases hfs : parseFs f [] (Token.comma :: ts2) with e | ⟨fs, rest2⟩
          · rw [show parseT (f + 1) (Token.lbrace :: Token.comma :: ts2) = .error e
              from by simp [parseT, hfs]] at h
            exact absurd h (by simp)
          · rw [show parseT (f + 1) (Token.lbrace :: Token.comma :: ts2) =
              .ok (.record fs, rest2) from by simp [parseT, hfs]] at h
            cases h
            obtain ⟨hprops, hrest⟩ := ihF [] _ fs _ hfs hok.tail
            obtain ⟨h1, h2, h3⟩ := hprops (by simp) (by simp) (by simp)
            exact ⟨WF.record h1 h2 h3, hrest⟩
        | ident s2 =>
          rcases hfs : parseFs f [] (Token.ident s2 :: ts2) with e | ⟨fs, rest2⟩
          · rw [show parseT (f + 1) (Token.lbrace :: Token.ident s2 :: ts2) = .error e
              from by simp [parseT, hfs]] at h
            exact absurd h (by simp)
          · rw [show parseT (f + 1) (Token.lbrace :: Token.ident s2 :: ts2) =
              .ok (.record fs, rest2) from by simp [parseT, hfs]] at h
            cases h
            obtain ⟨hprops, hrest⟩ := ihF [] _ fs _ hfs hok.tail
            obtain ⟨h1, h2, h3⟩ := hprops (by simp) (by simp) (by simp)
            exact ⟨WF.record h1 h2 h3, hrest⟩
      | rbrace => simp [parseT] at h
      | colon => simp [parseT] at h
      | comma => simp [parseT] at h
      | ident s =>
        by_cases hL : s = "List"
        · rcases ht : parseT f ts1 with e | ⟨t, rest2⟩
          · rw [show parseT (f + 1) (Token.ident s :: ts1) = .error e from by
              simp [parseT, hL, ht]] at h
            exact absurd h (by simp)
          · rw [show parseT (f + 1) (Token.ident s :: ts1) = .ok (.list t, rest2)
              from by simp [parseT, hL, ht]] at h
            cases h
            obtain ⟨hwf, hrest⟩ := ihT ts1 t _ ht hok.tail
            exact ⟨WF.list hwf, hrest⟩
        by_cases hO : s = "Optional"
        · rcases ht : parseT f ts1 with e | ⟨t, rest2⟩
          · rw [show parseT (f + 1) (Token.ident s :: ts1) = .error e from by
              simp [parseT, hL, hO, ht]] at h
            exact absurd h (by simp)
          · rw [show parseT (f + 1) (Token.ident s :: ts1) = .ok (.optional t, rest2)
              from by simp [parseT, hL, hO, ht]] at h
            cases h
            obtain ⟨hwf, hrest⟩ := ihT ts1 t _ ht hok.tail
            exact ⟨WF.optional hwf, hrest⟩
        rw [show parseT (f + 1) (Token.ident s :: ts1) = .ok (.scalar s, ts1) from by
          simp [parseT, hL, hO]] at h
        cases h
        exact ⟨WF.scalar (hok s (by simp)) hL hO, hok.tail⟩
    · intro acc ts fs rest h hok
      rcases ts with _ | ⟨tok, ts1⟩
      · simp [parseFs] at h
      cases tok with
      | ident name =>
        rcases ts1 with _ | ⟨tok2, ts2⟩
        · simp [parseFs] at h
        cases tok2 with
        | colon =>
          by_cases hdup : name ∈ acc.map Prod.fst
          · rw [show parseFs (f + 1) acc (Token.ident name :: Token.colon :: ts2) =
              .error (.dupField name) from by simp [parseFs, hdup]] at h
            exact absurd h (by simp)
          rcases ht : parseT f ts2 with e | ⟨t, rest2⟩
          · rw [show parseFs (f + 1) acc (Token.ident name :: Token.colon :: ts2) =
              .error e from by simp [parseFs, hdup, ht]] at h
            exact absurd h (by simp)
          obtain ⟨hwf, hrest2⟩ := ihT ts2 t rest2 ht hok.tail.tail
          have hvn : validName name := hok name (by simp)
          rcases rest2 with _ | ⟨tok3, rest3⟩
          · rw [show parseFs (f + 1) acc (Token.ident name :: Token.colon :: ts2) =
              .error .unterminated from by simp [parseFs, hdup, ht]] at h
            exact absurd h (by simp)
          cases tok3 with
          | comma =>
            rw [show parseFs (f + 1) acc (Token.ident name :: Token.colon :: ts2) =
              parseFs f (acc ++ [(name, t)]) rest3 from by simp [parseFs, hdup, ht]] at h
            obtain ⟨hprops, hrest⟩ := ihF (acc ++ [(name, t)]) rest3 fs rest h hrest2.tail
            refine ⟨?_, hrest⟩
            intro hnd hnames hwfs
            refine hprops ?_ ?_ ?_
            · simp only [List.map_append, List.map_cons, List.map_nil]
              rw [List.nodup_append]
              refine ⟨hnd, by simp, ?_⟩
              intro x hx
              simp only [List.mem_cons, List.not_mem_nil, or_false]
              intro hx2
              subst hx2
              exact hdup hx
            · intro p hp
              rcases List.mem_append.mp hp with hp1 | hp2
              · exact hnames p hp1
              · simp at hp2; subst hp2; exact hvn
            · intro p hp
              rcases List.mem_append.mp hp with hp1 | hp2
              · exact hwfs p hp1
              · simp at hp2; subst hp2; exact hwf
          | rbrace =>
            rw [show parseFs (f + 1) acc (Token.ident name :: Token.colon :: ts2) =
              .ok (acc ++ [(name, t)], rest3) from by simp [parseFs, hdup, ht]] at h
            cases h
            refine ⟨?_, hrest2.tail⟩
            intro hnd hnames hwfs
            refine ⟨?_, ?_, ?_⟩
            · simp only [List.map_append, List.map_cons, List.map_nil]
              rw [List.nodup_append]
              refine ⟨hnd, by simp, ?_⟩
              intro x hx
              simp only [List.mem_cons, List.not_mem_nil, or_false]
              intro hx2
              subst hx2
              exact hdup hx
            · intro p hp
              rcases List.mem_append.mp hp with hp1 | hp2
              · exact hnames p hp1
              · simp at hp2; subst hp2; exact hvn
            · intro p hp
              rcases List.mem_append.mp hp with hp1 | hp2
              · exact hwfs p hp1
              · simp at hp2; subst hp2; exact hwf
          | lbrace =>
            rw [show parseFs (f + 1) acc (Token.ident name :: Token.colon :: ts2) =
              .error (.unexpected "comma or closing brace" (some .lbrace)) from by
                simp [parseFs, hdup, ht]] at h
            exact absurd h (by simp)
          | colon =>
            rw [show parseFs (f + 1) acc (Token.ident name :: Token.colon :: ts2) =
              .error (.unexpected "comma or closing brace" (some .colon)) from by
                simp [parseFs, hdup, ht]] at h
            exact absurd h (by simp)
          | ident s2 =>
            rw [show parseFs (f + 1) acc (Token.ident name :: Token.colon :: ts2) =
              .error (.unexpected "comma or closing brace" (some (.ident s2))) from by
                simp [parseFs, hdup, ht]] at h
            exact absurd h (by simp)
        | lbrace => simp [parseFs] at h
        | rbrace => simp [parseFs] at h
        | comma => simp [parseFs] at h
        | ident s2 => simp [parseFs] at h
      | lbrace => simp [parseFs] at h
      | rbrace => simp [parseFs] at h
      | colon => simp [parseFs] at h
      | comma => simp [parseFs] at h

/-! ## Top-level parse and print -/

theorem parseTokens_sound {ts : List Token} {ast : TypeNode}
    (h : parseTokens ts = .ok ast) (hok : IdentsOK ts) :
    WF ast ∧ ∃ fs, ast = .record fs := by
  unfold parseTokens at h
  rcases hp0 : parseT (ts.length + 1) ts with e | ⟨a, rest⟩ <;> rw [hp0] at h
  · exact absurd h (by simp)
  rcases a with n | t | t | fs <;> rcases rest with _ | ⟨r, rest1⟩
  · exact absurd h (by simp)
  · exact absurd h (by simp)
  · exact absurd h (by simp)
  · exact absurd h (by simp)
  · exact absurd h (by simp)
  · exact absurd h (by simp)
  · cases h
    have := (parse_sound (ts.length + 1)).1 ts (.record fs) [] hp0 hok
    exact ⟨this.1, fs, rfl⟩
  · exact absurd h (by simp)

theorem parseTop_sound {s : String} {ast : TypeNode} (h : parseTop s = .ok ast) :
    WF ast ∧ ∃ fs, ast = .record fs := by
  unfold parseTop at h
  rcases hl : lex s.data with c | ts <;> rw [hl] at h
  · exact absurd h (by simp)
  · exact parseTokens_sound h (lex_sound hl)

theorem parseTokens_toks {fs : List (String × TypeNode)} (h : WF (.record fs)) :
    parseTokens (toks (.record fs)) = .ok (.record fs) := by
  unfold parseTokens
  have h1 := parseT_toks (.record fs) h ((toks (.record fs)).length + 1) [] (by simp)
  rw [List.append_nil] at h1
  rw [h1]

theorem parseTop_print {ast : TypeNode} (h : WF ast) (hr : ∃ fs, ast = .record fs) :
    parseTop (printTop ast) = .ok ast := by
  obtain ⟨fs, rfl⟩ := hr
  unfold parseTop printTop
  rw [show (String.mk (prC (TypeNode.record fs) 1)).data = prC (.record fs) 1 from rfl]
  rw [lex_toks h]
  exact parseTokens_toks h

/-! ## Transform pass lemmas -/

theorem tdisFields_eq_map (fs : List (String × TypeNode)) :
    tdisFields fs = fs.map (fun p =>
      (p.1, if p.1 == "image" && isTextScalar p.2 then imageType
            else transformDockerImageSpec p.2)) := by
  induction fs with
  | nil => simp [tdisFields]
  | cons f fs ih =>
    obtain ⟨n, t⟩ := f
    simp [tdisFields, ih]

theorem scalarText_WF : WF (.scalar "Text") :=
  WF.scalar (by constructor <;> decide) (by decide) (by decide)

theorem imageType_WF : WF imageType := by
  refine WF.record (by decide) ?_ ?_
  · intro p hp
    fin_cases hp <;> exact (by constructor <;> decide)
  · intro p hp
    fin_cases hp
    · exact WF.optional scalarText_WF
    · exact scalarText_WF
    · exact WF.optional scalarText_WF

theorem tdis_WF : ∀ t, WF t → WF (transformDockerImageSpec t) := by
  intro t
  induction t using TypeNode.indOn with
  | hs n =>
    intro h
    simp only [transformDockerImageSpec]
    exact h
  | ho t ih =>
    intro h
    cases h with
    | optional h0 =>
      simp only [transformDockerImageSpec]
      exact WF.optional (ih h0)
  | hl t ih =>
    intro h
    cases h with
    | list h0 =>
      simp only [transformDockerImageSpec]
      exact WF.list (ih h0)
  | hr fs ihf =>
    intro h
    cases h with
    | record hnd hn hw =>
      simp only [transformDockerImageSpec]
      refine WF.record ?_ ?_ ?_
      · rw [tdisFields_eq_map, List.map_map]
        rw [show (Prod.fst ∘ fun p : String × TypeNode =>
          (p.1, if p.1 == "image" && isTextScalar p.2 then imageType
                else transformDockerImageSpec p.2)) = Prod.fst from rfl]
        exact hnd
      · intro p hp
        rw [tdisFields_eq_map] at hp
        obtain ⟨q, hq, hpe⟩ := List.mem_map.mp hp
        subst hpe
        exact hn q hq
      · intro p hp
        rw [tdisFields_eq_map] at hp
        obtain ⟨q, hq, hpe⟩ := List.mem_map.mp hp
        subst hpe
        by_cases hc : (q.1 == "image" && isTextScalar q.2) = true
        · simpa [hc] using imageType_WF
        · simp only [if_neg hc]
          exact ihf q hq (hw q hq)

theorem t2rList_id {es : List Val} (h : ∀ e ∈ es, t2rCore e = e) : t2rList es = es := by
  induction es with
  | nil => simp [t2rList]
  | cons e es ih =>
    simp [t2rList, h e (by simp), ih (fun x hx => h x (by simp [hx]))]

/-! ## Printer layout characterization -/

theorem intercalate_cons_ne {α : Type} (sep x : List α) (l : List (List α))
    (h : l ≠ []) :
    List.intercalate sep (x :: l) = x ++ sep ++ List.intercalate sep l := by
  rcases l with _ | ⟨y, l2⟩
  · exact absurd rfl h
  · simp [List.intercalate, List.intersperse]

theorem prFields_eq (fs : List (String × TypeNode)) (h : fs ≠ []) (i : Nat) :
    prFields fs i = List.intercalate (',' :: ['\n'])
      (fs.map (fun p => indent i ++ (p.1.data ++ (' ' :: ':' :: ' ' :: prC p.2 i)))) ++
      ['\n'] := by
  induction fs with
  | nil => exact absurd rfl h
  | cons f fs ih =>
    obtain ⟨n, t⟩ := f
    cases fs with
    | nil =>
      simp only [prFields, List.map_cons, List.map_nil, List.intercalate,
        List.intersperse]
      simp [List.append_assoc, List.cons_append]
    | cons f2 fs2 =>
      rw [List.map_cons, intercalate_cons_ne _ _ _ (by simp)]
      simp only [prFields]
      rw [ih (by simp)]
      simp [List.append_assoc, List.cons_append]

/-! ## commonPrefix lemmas -/

theorem listLCP_nil_left (ps : List (List Char)) : listLCP [] ps = [] := by
  cases ps <;> rfl

theorem listLCP_take (cp ps : List (List Char)) :
    ∀ n, ps.length ≤ n → listLCP (cp.take n) ps = listLCP cp ps := by
  induction cp generalizing ps with
  | nil => intro n _; simp [listLCP_nil_left]
  | cons c cp ih =>
    intro n hn
    cases n with
    | zero =>
      have : ps = [] := List.length_eq_zero.mp (by omega)
      subst this
      simp [listLCP]
    | succ n =>
      cases ps with
      | nil => simp [listLCP]
      | cons b bs =>
        simp only [List.take_succ_cons, listLCP]
        rw [ih bs n (by simpa using hn)]

theorem lcpStep_eq (cp ps : List (List Char)) : lcpStep cp ps = listLCP cp ps := by
  unfold lcpStep
  by_cases h : ps.length < cp.length
  · rw [if_pos h]
    exact listLCP_take cp ps ps.length (le_refl _)
  · rw [if_neg h]

theorem foldl_lcpStep_eq (rest : List String) :
    ∀ cp0, rest.foldl (fun cp path => lcpStep cp (splitOnChar pathSep path.data)) cp0 =
      rest.foldl (fun acc q => listLCP acc (splitOnChar pathSep q.data)) cp0 := by
  induction rest with
  | nil => intro cp0; rfl
  | cons p rest ih =>
    intro cp0
    simp only [List.foldl_cons]
    rw [lcpStep_eq, ih]

theorem listLCP_deg (acc ps : List (List Char)) (h : acc = [] ∨ acc = [[]]) :
    listLCP acc ps = [] ∨ listLCP acc ps = [[]] := by
  rcases h with rfl | rfl
  · exact Or.inl (listLCP_nil_left ps)
  · cases ps with
    | nil => exact Or.inl rfl
    | cons b bs =>
      simp only [listLCP]
      by_cases hb : (([] : List Char) == b) = true
      · rw [if_pos hb]
        right
        rfl
      · rw [if_neg hb]
        exact Or.inl rfl

theorem foldl_listLCP_deg (rest : List String) :
    ∀ acc, (acc = [] ∨ acc = [[]]) →
      (rest.foldl (fun acc q => listLCP acc (splitOnChar pathSep q.data)) acc = [] ∨
       rest.foldl (fun acc q => listLCP acc (splitOnChar pathSep q.data)) acc = [[]]) := by
  induction rest with
  | nil => intro acc h; exact h
  | cons p rest ih =>
    intro acc h
    simp only [List.foldl_cons]
    exact ih _ (listLCP_deg acc _ h)

/-! ## The claims -/

/-- C1: every transform pass of the pipeline is total and never signals an
error: the modelled `transformList2Record` returns a rewritten record for
every input (never `.error`), `transformDockerImageSpec` maps every
well-formed tree to a well-formed tree, and only the Parser can fail — an
error of `composeSimplifiedDhallType` is exactly a `parseTop` error. -/
theorem claimC1 :
    (∀ v : Val, ∃ r, transformList2Record v = Except.ok r) ∧
    (∀ t : TypeNode, WF t → WF (transformDockerImageSpec t)) ∧
    (∀ t e, composeSimplifiedDhallType t = .error e → parseTop t = .error e) := by
  refine ⟨fun v => ⟨t2rCore v, rfl⟩, tdis_WF, ?_⟩
  intro t e h
  unfold composeSimplifiedDhallType at h
  rcases hp : parseTop t with e2 | rt <;> rw [hp] at h
  · cases h; rfl
  · exact absurd h (by simp)

/-- C1 witness at concrete inputs. -/
theorem claimC1_witness :
    (∃ r, transformList2Record (.vstr "x") = Except.ok r) ∧
    WF (transformDockerImageSpec (.scalar "Text")) ∧
    parseTop "(" = .error (.lexError '(') :=
  ⟨claimC1.1 _, claimC1.2.1 _ scalarText_WF, claimC1.2.2 "(" _ (by rfl)⟩

/-- C2: round-trip idempotence: a parsed AST printed and re-parsed gives a
structurally equal AST, so re-printing is byte-identical. -/
theorem claimC2 (t : String) (ast : TypeNode) (h : parseTop t = .ok ast) :
    parseTop (printTop ast) = .ok ast ∧
    (parseTop (printTop ast)).map printTop = .ok (printTop ast) := by
  obtain ⟨hwf, hrec⟩ := parseTop_sound h
  have h1 := parseTop_print hwf hrec
  exact ⟨h1, by rw [h1]; rfl⟩

/-- C2 witness at a concrete input text. -/
theorem claimC2_witness :
    parseTop (printTop (.record [("a", .scalar "Text")])) =
      .ok (.record [("a", .scalar "Text")]) :=
  (claimC2 "{ a : Text }" (.record [("a", .scalar "Text")]) (by rfl)).1

/-- C3: list-to-record strengthening: sample data of type
`List \x7b name : Text, port : Natural \x7d` with distinct names `web` and
`metrics` strengthens to data of type
`\x7b web : \x7b port : Natural \x7d, metrics : \x7b port : Natural \x7d \x7d`;
and any list whose elements do not form a closed enumeration of distinct
keys is returned unchanged. -/
theorem claimC3 :
    (typeOf (.vlist [.vrec [("name", .vstr "web"), ("port", .vnat 80)],
                     .vrec [("name", .vstr "metrics"), ("port", .vnat 6060)]]) =
        .list (.record [("name", .scalar "Text"), ("port", .scalar "Natural")]) ∧
     transformList2Record
        (.vlist [.vrec [("name", .vstr "web"), ("port", .vnat 80)],
                 .vrec [("name", .vstr "metrics"), ("port", .vnat 6060)]]) =
        .ok (.vrec [("web", .vrec [("port", .vnat 80)]),
                    ("metrics", .vrec [("port", .vnat 6060)])]) ∧
     typeOf (.vrec [("web", .vrec [("port", .vnat 80)]),
                    ("metrics", .vrec [("port", .vnat 6060)])]) =
        .record [("web", .record [("port", .scalar "Natural")]),
                 ("metrics", .record [("port", .scalar "Natural")])]) ∧
    (∀ es : List Val, (∀ e ∈ es, t2rCore e = e) → goodKeys es = false →
      transformList2Record (.vlist es) = .ok (.vlist es)) := by
  refine ⟨⟨rfl, rfl, rfl⟩, ?_⟩
  intro es h hk
  unfold transformList2Record
  have h2 : t2rCore (.vlist es) = .vlist es := by
    simp only [t2rCore]
    rw [t2rList_id h, hk]
    simp
  rw [h2]

/-- C3 witness: colliding keys decline the rewrite. -/
theorem claimC3_witness :
    transformList2Record (.vlist [.vrec [("name", .vstr "web")],
        .vrec [("name", .vstr "web")]]) =
      .ok (.vlist [.vrec [("name", .vstr "web")], .vrec [("name", .vstr "web")]]) :=
  claimC3.2 _ (by intro e he; fin_cases he <;> rfl) (by rfl)

/-- C4: the image-recognition pass rewrites the `image : Text` field of the
concrete scenario to the fixed image record, and leaves every `Text` field
not named `image` unchanged; the pass sees only names and types (the
type-level representation carries no field values). -/
theorem claimC4 :
    transformDockerImageSpec
        (.record [("Deployment",
          .record [("web", .record [("image", .scalar "Text")])])]) =
      .record [("Deployment", .record [("web", .record [("image", imageType)])])] ∧
    (∀ (fs : List (String × TypeNode)) (n : String), n ≠ "image" →
      (n, TypeNode.scalar "Text") ∈ fs →
      (n, TypeNode.scalar "Text") ∈ tdisFields fs) := by
  refine ⟨rfl, ?_⟩
  intro fs n hn hmem
  rw [tdisFields_eq_map]
  refine List.mem_map.mpr ⟨(n, .scalar "Text"), hmem, ?_⟩
  simp [transformDockerImageSpec, isTextScalar, hn]

/-- C4 witness: a non-`image` text field survives the pass. -/
theorem claimC4_witness :
    ("foo", TypeNode.scalar "Text") ∈ tdisFields [("foo", TypeNode.scalar "Text")] :=
  claimC4.2 _ "foo" (by decide) (by simp)

/-- C5: the parser rejects malformed input: every parsed AST is well-formed
(in particular field names are unique in every record, so duplicates are
never silently kept), and the four error conditions are rejected with the
corresponding errors — the duplicate-field input fails naming field `a`. -/
theorem claimC5 :
    (∀ (t : String) (ast : TypeNode), parseTop t = .ok ast → WF ast) ∧
    parseTop "{ a : Text, a : Bool }" = .error (.dupField "a") ∧
    parseTop "\x7b a : Text" = .error .unterminated ∧
    parseTop "\x7b a : Text \x7d \x7d" = .error .trailing ∧
    parseTop "{ : }" = .error (.unexpected "field name" (some .colon)) :=
  ⟨fun _ _ h => (parseTop_sound h).1, rfl, rfl, rfl, rfl⟩

/-- C5 witness at a concrete accepted input. -/
theorem claimC5_witness : WF (.record [("a", .scalar "Text")]) :=
  claimC5.1 "{ a : Text }" _ (by rfl)

/-- C6: determinism: two input texts with the same token stream (identical
up to whitespace) parse to identical ASTs and print byte-identically. -/
theorem claimC6 (t1 t2 : String) (h : lex t1.data = lex t2.data) :
    parseTop t1 = parseTop t2 ∧
    (parseTop t1).map printTop = (parseTop t2).map printTop := by
  have he : parseTop t1 = parseTop t2 := by
    unfold parseTop
    rw [h]
  exact ⟨he, by rw [he]⟩

/-- C6 witness: whitespace-only variation. -/
theorem claimC6_witness : parseTop "{a:Text}" = parseTop "{ a : Text }" :=
  (claimC6 "{a:Text}" "{ a : Text }" (by rfl)).1

/-- C7: atomicity: the core operation either fails with an error (producing
no output string) or returns a complete type string that is itself valid —
it re-parses, and the parsed tree prints back to exactly that string. -/
theorem claimC7 (t : String) :
    (∃ e, composeSimplifiedDhallType t = .error e) ∨
    (∃ s ast, composeSimplifiedDhallType t = .ok s ∧ parseTop s = .ok ast ∧
      printTop ast = s) := by
  rcases hp : parseTop t with e | rt
  · left
    exact ⟨e, by unfold composeSimplifiedDhallType; rw [hp]⟩
  · right
    obtain ⟨hwf, fs, rfl⟩ := parseTop_sound hp
    refine ⟨printTop (transformRecordType (.record fs)),
      transformRecordType (.record fs), ?_, ?_, rfl⟩
    · unfold composeSimplifiedDhallType
      rw [hp]
    · refine parseTop_print ?_ ?_
      · exact tdis_WF _ hwf
      · exact ⟨tdisFields fs, by simp [transformRecordType, transformDockerImageSpec]⟩

/-- C8: printer formatting: an empty record prints as the one-line empty
braces pair; a non-empty record prints as an opening brace, then one field
per line at one more indentation unit with a trailing comma on every field
except the last, then the closing brace at the enclosing indentation. -/
theorem claimC8 :
    (∀ i, prC (.record []) i = ['{', '}']) ∧
    (∀ (fs : List (String × TypeNode)) (i : Nat), fs ≠ [] →
      prC (.record fs) i =
        '{' :: '\n' ::
          (List.intercalate (',' :: ['\n'])
            (fs.map (fun p => indent (i + 1) ++
              (p.1.data ++ (' ' :: ':' :: ' ' :: prC p.2 (i + 1))))) ++
           ('\n' :: (indent i ++ ['}'])))) := by
  refine ⟨fun i => by simp [prC], ?_⟩
  intro fs i h
  rcases fs with _ | ⟨f, fs2⟩
  · exact absurd rfl h
  · simp only [prC]
    rw [prFields_eq (f :: fs2) (by simp) (i + 1)]
    simp [List.append_assoc]

/-- C8 witness at a concrete one-field record. -/
theorem claimC8_witness :
    prC (.record [("a", .scalar "Text")]) 0 =
      '{' :: '\n' ::
        (List.intercalate (',' :: ['\n'])
          ([("a", TypeNode.scalar "Text")].map (fun p => indent (0 + 1) ++
            (p.1.data ++ (' ' :: ':' :: ' ' :: prC p.2 (0 + 1))))) ++
         ('\n' :: (indent 0 ++ ['}']))) :=
  claimC8.2 [("a", .scalar "Text")] 0 (by simp)

/-- C9: `strengthenRecord` is the identity when the strengthen flag is off
or the k8s schema is in use, and whenever the list-to-record pass reports
an error it returns the original record untransformed. -/
theorem claimC9 :
    (∀ (α : Type) (t2r : α → Except String α) (tdis : α → α)
      (st k8 : Bool) (rcd : α), (st = false ∨ k8 = true) →
        strengthenRecord t2r tdis st k8 rcd = rcd) ∧
    (∀ (α : Type) (t2r : α → Except String α) (tdis : α → α)
      (st k8 : Bool) (rcd : α) (e : String), t2r rcd = .error e →
        strengthenRecord t2r tdis st k8 rcd = rcd) := by
  constructor
  · intro α t2r tdis st k8 rcd h
    unfold strengthenRecord
    rcases h with rfl | rfl
    · simp
    · simp
  · intro α t2r tdis st k8 rcd e h
    unfold strengthenRecord
    by_cases hc : (!st || k8) = true
    · rw [if_pos hc]
    · rw [if_neg hc, h]

/-- C9 witness: a failing pass and a disabled flag both return the input. -/
theorem claimC9_witness :
    strengthenRecord (fun _ : Nat => Except.error "e") id true false 7 = 7 ∧
    strengthenRecord (fun n : Nat => Except.ok n) id false false 7 = 7 :=
  ⟨claimC9.2 Nat _ id true false 7 "e" rfl, claimC9.1 Nat _ id false false 7 (Or.inl rfl)⟩

/-- C10 counterexample: on `["/a", "/b"]` the code returns `/`, while the
claim's description — the component-wise common prefix of the split paths
(here the single empty component before the leading separator) joined by
the separator — is the empty string. -/
theorem claimC10_counterexample :
    commonPrefix ["/a", "/b"] = "/" ∧
    specCommonPrefixLiteral ["/a", "/b"] = "" ∧
    ("/" : String) ≠ "" := ⟨rfl, rfl, by decide⟩

/-- C10 (amended): `commonPrefix` returns the empty string on an empty
list, and otherwise the component-wise common prefix of the split paths
joined by the separator — except that it returns `/` both when that prefix
is empty and when it is the single empty component (paths agreeing only in
the leading separator). -/
theorem claimC10 : ∀ paths, commonPrefix paths = specCommonPrefixAmended paths := by
  intro paths
  cases paths with
  | nil => rfl
  | cons p rest =>
    by_cases h0 : splitOnChar pathSep p.data = [] ∨ splitOnChar pathSep p.data = [[]]
    · simp only [commonPrefix, specCommonPrefixAmended]
      rw [if_pos h0, if_pos (foldl_listLCP_deg rest _ h0)]
    · simp only [commonPrefix, specCommonPrefixAmended]
      rw [if_neg h0, foldl_lcpStep_eq]

end DsToDhall
